import Mathlib

/-!
# Verification of the fancy-hangman (wordle-cli) game core

Shallow embedding of `src/main.rs` of tohuwabohu-io/fancy-hangman-rs.

A Rust `&str` is modelled as a `List Char`; its `len()` (the number of UTF-8
bytes) is `byteLen`.  `check_word`, `validate_user_input`, `read_input` and the
game loop of `start_game` are translated from the source; `Vec` indexing that
can panic, and the infinite blocking read, surface as `Option`/status values.
The `Dictionary` and text-normalisation collaborators live outside `src/`
(library crate `wordle_cli`), so they are modelled from the spec: `find_word`
is a membership test on a word list, `get_random_word` is an `Option Solution`
parameter, `guessed_word` is recorded as an observable call count, and the
player's input lines are supplied as an already-normalised list of words.
-/

namespace Wordle

/-- Per-character feedback: green (`Exact`), yellow (`Present`), uncoloured
(`Absent`) — the three print branches of `check_word` in `src/main.rs`. -/
inductive Feedback where
  | Exact
  | Present
  | Absent
deriving DecidableEq

/-- A Rust string, as its sequence of `char`s. -/
abbrev Word := List Char

/-- Rust `str::len()`: the length in UTF-8 bytes. -/
def byteLen (w : Word) : Nat := (w.map Char.utf8Size).sum

/-- One iteration of the `for i in 0..guessed_word.len()` loop of
`check_word`: index the `Vec<char>` of the guess at `i` (panic — `none` — when
out of bounds), test `solution_word.find(ch)` (containment of the char
anywhere in the solution), and on containment index the solution's `Vec<char>`
at `i` to compare positions. -/
def checkStep (solution_word guessed_word : Word) (i : Nat) : Option Feedback :=
  match guessed_word.get? i with
  | none => none
  | some g =>
    if solution_word.contains g then
      match solution_word.get? i with
      | none => none
      | some s => some (if s = g then .Exact else .Present)
    else some .Absent

/-- The classification loop of `check_word`, iterating `i` from `i0` for `n`
steps; `none` as soon as an index panics. -/
def feedback_loop (solution_word guessed_word : Word) (i0 n : Nat) :
    Option (List Feedback) :=
  match n with
  | 0 => some []
  | n + 1 =>
    match checkStep solution_word guessed_word i0 with
    | none => none
    | some f =>
      match feedback_loop solution_word guessed_word (i0 + 1) n with
      | none => none
      | some fs => some (f :: fs)

/-- `check_word(solution_word, guessed_word)` of `src/main.rs`: the loop runs
over `0..guessed_word.len()` (BYTE length), then the returned boolean is
`String::from(solution_word).eq(guessed_word)` — sequence equality, computed
after and independently of the per-character classification.  `none` models
the panic of an out-of-bounds `Vec` index. -/
def check_word (solution_word guessed_word : Word) :
    Option (List Feedback × Bool) :=
  match feedback_loop solution_word guessed_word 0 (byteLen guessed_word) with
  | none => none
  | some fb => some (fb, solution_word == guessed_word)

/-- `validate_user_input` of `src/main.rs`: byte length equals the expected
length. -/
def validate_user_input (user_input : Word) (expected_len : Nat) : Bool :=
  byteLen user_input == expected_len

/-- `read_input(word_len, lang)` of `src/main.rs`, over the stream of the
player's (already normalised) input lines: loop until a line passes
`validate_user_input`, printing an invalid-input message and re-reading
otherwise.  `none` models blocking forever on an exhausted stream. -/
def read_input (word_len : Nat) : List Word → Option (Word × List Word)
  | [] => none
  | a :: rest =>
    if validate_user_input a word_len then some (a, rest)
    else read_input word_len rest

/-- How the game loop of `start_game` can end. -/
inductive LStatus where
  | blocked
  | panicked
  | done (fullMatch : Bool)
deriving DecidableEq

/-- Observable footprint of the `while counter < max_attempts` loop of
`start_game` (`src/main.rs`, lines 74–103): the way it ended, the final value
of `counter`, the value of `counter` at each loop-head check (`trace`), the
results of every `check_word` invocation (`evals`, a `none` entry being the
panic), the number of "not in the word list" messages, and the number of
attempts `read_input` delivered. -/
structure LoopRes where
  status : LStatus
  counter : Nat
  trace : List Nat
  evals : List (Option (List Feedback × Bool))
  notFoundMsgs : Nat
  attemptsRead : Nat
deriving DecidableEq

/-- The attempt loop of `start_game` over the stream of input lines, with
`read_input`'s retry loop fused into the stream recursion (an invalid-length
line is skipped without re-entering the loop body): while `counter < 6`, read
a validated attempt (`read_input(5, lang)` — the expected length is the
constant 5), gate it through `dictionary.find_word`, and on a hit run
`check_word(solution.word, attempt)`; `break` on a full match BEFORE the
`counter += 1` bookkeeping, otherwise print the remaining-guesses message and
increment `counter`.  A miss in the dictionary only prints "The guessed word
is not in the word list.". -/
def game_loop (dict : List Word) (sw : Word) : List Word → Nat → LoopRes
  | [], counter =>
    if 6 ≤ counter then ⟨.done false, counter, [counter], [], 0, 0⟩
    else ⟨.blocked, counter, [counter], [], 0, 0⟩
  | a :: rest, counter =>
    if 6 ≤ counter then ⟨.done false, counter, [counter], [], 0, 0⟩
    else if validate_user_input a 5 then
      if dict.contains a then
        match check_word sw a with
        | none => ⟨.panicked, counter, [counter], [none], 0, 1⟩
        | some (fb, fm) =>
          if fm then ⟨.done true, counter, [counter], [some (fb, fm)], 0, 1⟩
          else
            let r := game_loop dict sw rest (counter + 1)
            ⟨r.status, r.counter, counter :: r.trace, some (fb, fm) :: r.evals,
             r.notFoundMsgs, r.attemptsRead + 1⟩
      else
        let r := game_loop dict sw rest counter
        ⟨r.status, r.counter, counter :: r.trace, r.evals,
         r.notFoundMsgs + 1, r.attemptsRead + 1⟩
    else game_loop dict sw rest counter

/-- The `Solution` entity delivered by `Dictionary::get_random_word`: the
hidden word and its `guessed` flag. -/
structure Solution where
  word : Word
  guessed : Bool
deriving DecidableEq

/-- Observable footprint of one `start_game` session. -/
structure SessionRes where
  emptyDictMsg : Bool
  shortcut : Bool
  evals : List (Option (List Feedback × Bool))
  attemptsRead : Nat
  guessedWordCalls : Nat
  counter : Nat
  trace : List Nat
  loopStatus : Option LStatus
  victoryMsg : Bool
  comeBackMsg : Bool
deriving DecidableEq

/-- `start_game` of `src/main.rs`: `get_random_word` returning `none` prints
"Maybe the dictionary is empty?" and returns; a solution already `guessed`
runs one display pass `check_word(solution.word, solution.word)` and prints
"You won! Come back tomorrow!" (reached only when that pass does not panic);
otherwise the attempt loop runs from `counter = 0`, and afterwards — only
when the loop finished with `full_match` true — "Congratulations! You won!"
is printed and `dictionary.guessed_word(solution)` is called. -/
def start_game (solutionOpt : Option Solution) (dict : List Word)
    (inputs : List Word) : SessionRes :=
  match solutionOpt with
  | none => ⟨true, false, [], 0, 0, 0, [], none, false, false⟩
  | some solution =>
    if solution.guessed then
      ⟨false, true, [check_word solution.word solution.word], 0, 0, 0, [],
       none, false, (check_word solution.word solution.word).isSome⟩
    else
      let r := game_loop dict solution.word inputs 0
      let fm : Bool := r.status == .done true
      ⟨false, false, r.evals, r.attemptsRead, if fm then 1 else 0, r.counter,
       r.trace, some r.status, fm, false⟩

/-! ## Evaluator lemmas -/

theorem length_le_byteLen (w : Word) : w.length ≤ byteLen w := by
  induction w with
  | nil => simp [byteLen]
  | cons c w ih =>
    have hc := Char.utf8Size_pos c
    simp only [byteLen, List.map_cons, List.sum_cons, List.length_cons] at *
    omega

theorem checkStep_bound (sw gw : Word) (i : Nat) (f : Feedback)
    (h : checkStep sw gw i = some f) : i < gw.length := by
  by_contra hi
  have : gw.get? i = none := List.get?_eq_none.mpr (by omega)
  unfold checkStep at h
  rw [this] at h
  cases h

theorem feedback_loop_spec (sw gw : Word) :
    ∀ (n i0 : Nat) (fb : List Feedback),
      feedback_loop sw gw i0 n = some fb →
      fb.length = n ∧ ∀ j, j < n → checkStep sw gw (i0 + j) = fb.get? j := by
  intro n
  induction n with
  | zero =>
    intro i0 fb h
    unfold feedback_loop at h
    injection h with h
    subst h
    exact ⟨rfl, fun j hj => absurd hj (Nat.not_lt_zero j)⟩
  | succ n ih =>
    intro i0 fb h
    unfold feedback_loop at h
    cases hs : checkStep sw gw i0 with
    | none => rw [hs] at h; cases h
    | some f =>
      rw [hs] at h
      cases hr : feedback_loop sw gw (i0 + 1) n with
      | none => rw [hr] at h; cases h
      | some fs =>
        rw [hr] at h
        injection h with h
        subst h
        obtain ⟨hl, hget⟩ := ih (i0 + 1) fs hr
        refine ⟨by simp [hl], fun j hj => ?_⟩
        cases j with
        | zero => simpa using hs
        | succ j =>
          have hj' := hget j (by omega)
          rw [List.get?_cons_succ]
          rw [← hj']
          congr 1
          omega

theorem check_word_some (sw gw : Word) (fb : List Feedback) (b : Bool)
    (h : check_word sw gw = some (fb, b)) :
    feedback_loop sw gw 0 (byteLen gw) = some fb ∧ b = (sw == gw) := by
  unfold check_word at h
  cases hf : feedback_loop sw gw 0 (byteLen gw) with
  | none => rw [hf] at h; cases h
  | some fb2 =>
    rw [hf] at h
    injection h with h
    injection h with h1 h2
    subst h1
    exact ⟨rfl, h2.symm⟩

/-- The spec's running example solution word. -/
def crane : Word := ['c', 'r', 'a', 'n', 'e']

/-- The spec's running example guess differing in one position. -/
def crate : Word := ['c', 'r', 'a', 't', 'e']

/-- C1: for every solution word and guessed word on which `check_word`
returns (does not panic), the returned full-match boolean is `true` iff the
two words are identical as character sequences — it is the sequence-equality
test `String::from(solution_word).eq(guessed_word)`, computed independently
of the per-character classification. -/
theorem check_word_full_match_iff (sw gw : Word) (fb : List Feedback)
    (b : Bool) (h : check_word sw gw = some (fb, b)) :
    b = true ↔ sw = gw := by
  obtain ⟨-, hb⟩ := check_word_some sw gw fb b h
  subst hb
  exact ⟨fun hb => eq_of_beq hb, fun he => by subst he; exact beq_self_eq_true sw⟩

theorem check_word_full_match_iff_witness : (true = true ↔ crane = crane) :=
  check_word_full_match_iff crane crane
    [.Exact, .Exact, .Exact, .Exact, .Exact] true (by decide)

/-- C2: for equal-length words, each position of the feedback produced by
`check_word` carries exactly one of the three classes, decided by whole-word
containment of the guessed character (no multiplicity accounting): `Absent`
iff it occurs nowhere in the solution, `Exact` iff it occurs and the
solution's character at the same position equals it, `Present` iff it occurs
but the character at that position differs. -/
theorem check_word_classification (sw gw : Word) (fb : List Feedback)
    (b : Bool) (i : Nat) (g s : Char)
    (hcw : check_word sw gw = some (fb, b))
    (_hlen : sw.length = gw.length)
    (hg : gw.get? i = some g) (hs : sw.get? i = some s) :
    ∃ f, fb.get? i = some f ∧
      (f = .Absent ↔ g ∉ sw) ∧
      (f = .Exact ↔ g ∈ sw ∧ s = g) ∧
      (f = .Present ↔ g ∈ sw ∧ s ≠ g) := by
  obtain ⟨hf, -⟩ := check_word_some sw gw fb b hcw
  obtain ⟨-, hget⟩ := feedback_loop_spec sw gw (byteLen gw) 0 fb hf
  have hi : i < gw.length := by
    by_contra hi
    rw [List.get?_eq_none.mpr (by omega)] at hg
    cases hg
  have hstep := hget i (lt_of_lt_of_le hi (length_le_byteLen gw))
  rw [Nat.zero_add] at hstep
  simp only [checkStep, hg, hs] at hstep
  by_cases hc : g ∈ sw
  · have hc' : sw.contains g = true := List.elem_iff.mpr hc
    rw [if_pos hc'] at hstep
    by_cases hsg : s = g
    · refine ⟨.Exact, by rw [← hstep]; simp [hsg], ?_, ?_, ?_⟩ <;>
        simp [hc, hsg]
    · refine ⟨.Present, by rw [← hstep]; simp [hsg], ?_, ?_, ?_⟩ <;>
        simp [hc, hsg]
  · have hc' : ¬ sw.contains g = true := fun hx => hc (List.elem_iff.mp hx)
    rw [if_neg hc'] at hstep
    exact ⟨.Absent, hstep.symm, by simp [hc], by simp [hc], by simp [hc]⟩

theorem check_word_classification_witness :
    ∃ f, ([Feedback.Exact, .Exact, .Exact, .Absent, .Exact].get? 3 = some f ∧
      (f = .Absent ↔ ('t' : Char) ∉ crane) ∧
      (f = .Exact ↔ ('t' : Char) ∈ crane ∧ 'n' = 't') ∧
      (f = .Present ↔ ('t' : Char) ∈ crane ∧ ('n' : Char) ≠ 't')) :=
  check_word_classification crane crate
    [.Exact, .Exact, .Exact, .Absent, .Exact] false 3 't' 'n'
    (by decide) (by decide) (by decide) (by decide)

/-! ## Game-loop lemmas -/

/-- The loop invariant of `game_loop` seen from a start value of `counter`:
the trace opens at `counter`, is non-decreasing and bounded by 6, the final
counter lies between `counter` and 6, and the value 6 occurs (as final value
or anywhere in the trace) only on loss-by-exhaustion. -/
def LoopInv (counter : Nat) (r : LoopRes) : Prop :=
  r.trace.head? = some counter ∧
  List.Chain' (· ≤ ·) r.trace ∧
  (∀ c ∈ r.trace, counter ≤ c ∧ c ≤ 6) ∧
  counter ≤ r.counter ∧
  r.counter ≤ 6 ∧
  (r.counter = 6 → r.status = .done false) ∧
  (6 ∈ r.trace → r.status = .done false)

theorem game_loop_exhausted (dict : List Word) (sw : Word)
    (inputs : List Word) (counter : Nat) (hc : 6 ≤ counter) :
    game_loop dict sw inputs counter =
      ⟨.done false, counter, [counter], [], 0, 0⟩ := by
  cases inputs <;> simp [game_loop, hc]

theorem game_loop_nil (dict : List Word) (sw : Word) (counter : Nat)
    (hc : counter < 6) :
    game_loop dict sw [] counter = ⟨.blocked, counter, [counter], [], 0, 0⟩ := by
  have h6 : ¬ 6 ≤ counter := by omega
  simp [game_loop, h6]

theorem game_loop_skip (dict : List Word) (sw a : Word) (rest : List Word)
    (counter : Nat) (hv : validate_user_input a 5 = false) :
    game_loop dict sw (a :: rest) counter = game_loop dict sw rest counter := by
  by_cases hc : 6 ≤ counter
  · rw [game_loop_exhausted dict sw (a :: rest) counter hc,
      game_loop_exhausted dict sw rest counter hc]
  · simp [game_loop, hc, hv]

theorem game_loop_notfound (dict : List Word) (sw a : Word)
    (rest : List Word) (counter : Nat) (hc : counter < 6)
    (hv : validate_user_input a 5 = true) (hd : dict.contains a = false) :
    game_loop dict sw (a :: rest) counter =
      ⟨(game_loop dict sw rest counter).status,
       (game_loop dict sw rest counter).counter,
       counter :: (game_loop dict sw rest counter).trace,
       (game_loop dict sw rest counter).evals,
       (game_loop dict sw rest counter).notFoundMsgs + 1,
       (game_loop dict sw rest counter).attemptsRead + 1⟩ := by
  have h6 : ¬ 6 ≤ counter := by omega
  have hm : a ∉ dict := by
    intro hmem
    have h2 : dict.contains a = true := List.elem_iff.mpr hmem
    rw [hd] at h2
    simp at h2
  simp [game_loop, h6, hv, hm]

theorem game_loop_panic (dict : List Word) (sw a : Word) (rest : List Word)
    (counter : Nat) (hc : counter < 6)
    (hv : validate_user_input a 5 = true) (hd : dict.contains a = true)
    (hcw : check_word sw a = none) :
    game_loop dict sw (a :: rest) counter =
      ⟨.panicked, counter, [counter], [none], 0, 1⟩ := by
  have h6 : ¬ 6 ≤ counter := by omega
  have hm : a ∈ dict := List.elem_iff.mp hd
  simp [game_loop, h6, hv, hm, hcw]

theorem game_loop_won (dict : List Word) (sw a : Word) (rest : List Word)
    (counter : Nat) (fb : List Feedback) (hc : counter < 6)
    (hv : validate_user_input a 5 = true) (hd : dict.contains a = true)
    (hcw : check_word sw a = some (fb, true)) :
    game_loop dict sw (a :: rest) counter =
      ⟨.done true, counter, [counter], [some (fb, true)], 0, 1⟩ := by
  have h6 : ¬ 6 ≤ counter := by omega
  have hm : a ∈ dict := List.elem_iff.mp hd
  simp [game_loop, h6, hv, hm, hcw]

theorem game_loop_miss (dict : List Word) (sw a : Word) (rest : List Word)
    (counter : Nat) (fb : List Feedback) (hc : counter < 6)
    (hv : validate_user_input a 5 = true) (hd : dict.contains a = true)
    (hcw : check_word sw a = some (fb, false)) :
    game_loop dict sw (a :: rest) counter =
      ⟨(game_loop dict sw rest (counter + 1)).status,
       (game_loop dict sw rest (counter + 1)).counter,
       counter :: (game_loop dict sw rest (counter + 1)).trace,
       some (fb, false) :: (game_loop dict sw rest (counter + 1)).evals,
       (game_loop dict sw rest (counter + 1)).notFoundMsgs,
       (game_loop dict sw rest (counter + 1)).attemptsRead + 1⟩ := by
  have h6 : ¬ 6 ≤ counter := by omega
  have hm : a ∈ dict := List.elem_iff.mp hd
  simp [game_loop, h6, hv, hm, hcw]

theorem LoopInv_single (st : LStatus) (counter : Nat)
    (ev : List (Option (List Feedback × Bool))) (nf ar : Nat)
    (h6 : counter ≤ 6) (hst : counter = 6 → st = .done false) :
    LoopInv counter ⟨st, counter, [counter], ev, nf, ar⟩ := by
  refine ⟨rfl, List.chain'_singleton counter, ?_, le_refl counter, h6, hst, ?_⟩
  · intro c hcm
    rw [List.mem_singleton] at hcm
    omega
  · intro h
    rw [List.mem_singleton] at h
    exact hst h.symm

theorem LoopInv_prepend (counter next : Nat) (r : LoopRes)
    (ev : List (Option (List Feedback × Bool))) (nf ar : Nat)
    (hinv : LoopInv next r) (hle : counter ≤ next) (hlt : counter < 6) :
    LoopInv counter ⟨r.status, r.counter, counter :: r.trace, ev, nf, ar⟩ := by
  obtain ⟨h1, h2, h3, h4, h5, h6', h7⟩ := hinv
  refine ⟨rfl, ?_, ?_, ?_, h5, h6', ?_⟩
  · show List.Chain' (· ≤ ·) (counter :: r.trace)
    rw [List.chain'_cons']
    refine ⟨fun b hb => ?_, h2⟩
    rw [h1] at hb
    simp at hb
    omega
  · show ∀ c ∈ counter :: r.trace, counter ≤ c ∧ c ≤ 6
    intro c hcm
    rcases List.mem_cons.mp hcm with h | h
    · omega
    · have := h3 c h
      omega
  · show counter ≤ r.counter
    omega
  · show 6 ∈ counter :: r.trace → r.status = .done false
    intro h
    rcases List.mem_cons.mp h with h | h
    · omega
    · exact h7 h

theorem game_loop_inv (dict : List Word) (sw : Word) :
    ∀ (inputs : List Word) (counter : Nat), counter ≤ 6 →
      LoopInv counter (game_loop dict sw inputs counter) := by
  intro inputs
  induction inputs with
  | nil =>
    intro counter h6
    by_cases hc : 6 ≤ counter
    · rw [game_loop_exhausted dict sw [] counter hc]
      exact LoopInv_single _ _ _ _ _ h6 (fun _ => rfl)
    · rw [game_loop_nil dict sw counter (by omega)]
      exact LoopInv_single _ _ _ _ _ h6 (fun h => by omega)
  | cons a rest ih =>
    intro counter h6
    by_cases hc : 6 ≤ counter
    · rw [game_loop_exhausted dict sw (a :: rest) counter hc]
      exact LoopInv_single _ _ _ _ _ h6 (fun _ => rfl)
    · have hlt : counter < 6 := by omega
      by_cases hv : validate_user_input a 5 = true
      · by_cases hd : dict.contains a = true
        · cases hcw : check_word sw a with
          | none =>
            rw [game_loop_panic dict sw a rest counter hlt hv hd hcw]
            exact LoopInv_single _ _ _ _ _ h6 (fun h => by omega)
          | some p =>
            obtain ⟨fb, fm⟩ := p
            cases fm with
            | true =>
              rw [game_loop_won dict sw a rest counter fb hlt hv hd hcw]
              exact LoopInv_single _ _ _ _ _ h6 (fun h => by omega)
            | false =>
              rw [game_loop_miss dict sw a rest counter fb hlt hv hd hcw]
              exact LoopInv_prepend counter (counter + 1) _ _ _ _
                (ih (counter + 1) (by omega)) (by omega) hlt
        · rw [game_loop_notfound dict sw a rest counter hlt hv
            (by revert hd; cases dict.contains a <;> simp)]
          exact LoopInv_prepend counter counter _ _ _ _
            (ih counter h6) (le_refl counter) hlt
      · rw [game_loop_skip dict sw a rest counter
          (by revert hv; cases validate_user_input a 5 <;> simp)]
        exact ih counter h6

/-- C3: across every session, the attempt counter starts at 0, is
monotonically non-decreasing, never exceeds `max_attempts = 6`, and reaches 6
only at a session that ends by exhaustion (`Lost` — in the code, the final
`counter < max_attempts` check failing with `full_match` still false). -/
theorem attempt_counter_budget (so : Option Solution) (dict : List Word)
    (inputs : List Word) :
    ((start_game so dict inputs).trace ≠ [] →
      (start_game so dict inputs).trace.head? = some 0) ∧
    List.Chain' (· ≤ ·) (start_game so dict inputs).trace ∧
    (∀ c ∈ (start_game so dict inputs).trace, c ≤ 6) ∧
    (start_game so dict inputs).counter ≤ 6 ∧
    ((start_game so dict inputs).counter = 6 →
      (start_game so dict inputs).loopStatus = some (.done false)) ∧
    (6 ∈ (start_game so dict inputs).trace →
      (start_game so dict inputs).loopStatus = some (.done false)) := by
  match so with
  | none =>
    refine ⟨?_, ?_, ?_, ?_, ?_, ?_⟩ <;> simp [start_game]
  | some sol =>
    by_cases hg : sol.guessed = true
    · refine ⟨?_, ?_, ?_, ?_, ?_, ?_⟩ <;> simp [start_game, hg]
    · obtain ⟨ih1, ih2, ih3, ih4, ih5, ih6, ih7⟩ :=
        game_loop_inv dict sol.word inputs 0 (by omega)
      simp only [start_game, if_neg hg]
      refine ⟨fun _ => ih1, ih2, fun c hc => (ih3 c hc).2, ih5, ?_, ?_⟩
      · intro h
        rw [ih6 h]
      · intro h
        rw [ih7 h]

/-! ## Input validation, bookkeeping and safety -/

theorem read_input_validated (wl : Nat) :
    ∀ (inputs : List Word) (a : Word) (rest : List Word),
      read_input wl inputs = some (a, rest) →
      validate_user_input a wl = true := by
  intro inputs
  induction inputs with
  | nil => intro a rest h; cases h
  | cons x xs ih =>
    intro a rest h
    unfold read_input at h
    by_cases hv : validate_user_input x wl = true
    · rw [if_pos hv] at h
      injection h with h
      injection h with h1 h2
      subst h1
      exact hv
    · rw [if_neg hv] at h
      exact ih a rest h

/-- C4: an attempt accepted by `read_input` has length (in bytes, which is
what `validate_user_input` compares) equal to the hard-coded expected length
5 — hence equal to the solution word's length, solutions being the game's
5-letter words — and an input line rejected for its length is skipped by the
validation retry loop, leaving the whole rest of the session, in particular
the attempt counter, exactly as if the line had never been typed. -/
theorem accepted_attempt_length (sw a b : Word) (dict : List Word)
    (inputs rest inputs2 : List Word) (counter : Nat)
    (hsw : byteLen sw = 5)
    (hacc : read_input 5 inputs = some (a, rest))
    (hrej : validate_user_input b 5 = false) :
    byteLen a = byteLen sw ∧
    game_loop dict sw (b :: inputs2) counter =
      game_loop dict sw inputs2 counter := by
  constructor
  · have hv := read_input_validated 5 inputs a rest hacc
    unfold validate_user_input at hv
    rw [hsw]
    exact eq_of_beq hv
  · exact game_loop_skip dict sw b inputs2 counter hrej

theorem accepted_attempt_length_witness :
    byteLen crate = byteLen crane ∧
    game_loop [] crane (['c', 'r'] :: []) 0 = game_loop [] crane [] 0 :=
  accepted_attempt_length crane crate ['c', 'r'] [] [crate] [] [] 0
    (by decide) (by decide) (by decide)

/-- C5, as the code has it: a winning guess `break`s out of the loop BEFORE
the `counter += 1` bookkeeping, so the counter is NOT incremented — in the
session below the first guess is the solution and the final counter is 0,
where the claim's increment-then-break would leave 1. -/
theorem full_match_increment_cex :
    (start_game (some ⟨crane, false⟩) [crane] [crane]).loopStatus
        = some (.done true) ∧
    (start_game (some ⟨crane, false⟩) [crane] [crane]).counter = 0 ∧
    ¬ (start_game (some ⟨crane, false⟩) [crane] [crane]).counter = 1 := by
  decide

/-- C5 amended: when a dictionary-accepted guess is a full match, the loop
exits immediately — with the attempt counter unchanged, since the `break`
comes before the `counter += 1` line. -/
theorem full_match_breaks_before_increment (dict : List Word) (sw a : Word)
    (rest : List Word) (counter : Nat) (fb : List Feedback)
    (hc : counter < 6) (hv : validate_user_input a 5 = true)
    (hd : dict.contains a = true) (hcw : check_word sw a = some (fb, true)) :
    (game_loop dict sw (a :: rest) counter).status = .done true ∧
    (game_loop dict sw (a :: rest) counter).counter = counter := by
  rw [game_loop_won dict sw a rest counter fb hc hv hd hcw]
  exact ⟨rfl, rfl⟩

theorem full_match_breaks_before_increment_witness :
    (game_loop [crane] crane [crane] 0).status = .done true ∧
    (game_loop [crane] crane [crane] 0).counter = 0 :=
  full_match_breaks_before_increment [crane] crane crane [] 0
    [.Exact, .Exact, .Exact, .Exact, .Exact]
    (by decide) (by decide) (by decide) (by decide)

/-- C6: a validated guess that `find_word` does not know emits one
"not in the word list" message, invokes no evaluator, leaves the attempt
counter untouched, and the loop goes on awaiting the next guess — the whole
remaining session proceeds from the same counter. -/
theorem failed_lookup_is_free (dict : List Word) (sw a : Word)
    (inputs : List Word) (counter : Nat) (hc : counter < 6)
    (hv : validate_user_input a 5 = true) (hd : dict.contains a = false) :
    (game_loop dict sw (a :: inputs) counter).notFoundMsgs
        = (game_loop dict sw inputs counter).notFoundMsgs + 1 ∧
    (game_loop dict sw (a :: inputs) counter).evals
        = (game_loop dict sw inputs counter).evals ∧
    (game_loop dict sw (a :: inputs) counter).counter
        = (game_loop dict sw inputs counter).counter ∧
    (game_loop dict sw (a :: inputs) counter).status
        = (game_loop dict sw inputs counter).status ∧
    (game_loop dict sw (a :: inputs) counter).trace
        = counter :: (game_loop dict sw inputs counter).trace := by
  rw [game_loop_notfound dict sw a inputs counter hc hv hd]
  exact ⟨rfl, rfl, rfl, rfl, rfl⟩

theorem failed_lookup_is_free_witness :
    (game_loop [] crane [crate] 0).notFoundMsgs
        = (game_loop [] crane [] 0).notFoundMsgs + 1 ∧
    (game_loop [] crane [crate] 0).evals = (game_loop [] crane [] 0).evals ∧
    (game_loop [] crane [crate] 0).counter
        = (game_loop [] crane [] 0).counter ∧
    (game_loop [] crane [crate] 0).status
        = (game_loop [] crane [] 0).status ∧
    (game_loop [] crane [crate] 0).trace
        = 0 :: (game_loop [] crane [] 0).trace :=
  failed_lookup_is_free [] crane crate [] 0
    (by decide) (by decide) (by decide)

/-- C7: with an empty dictionary (`get_random_word` returns no solution)
`start_game` prints "Maybe the dictionary is empty?" and returns: no attempt
is read, no evaluation runs, `guessed_word` is never called, the loop is
never entered, and the session ends as an ordinary return, not a crash. -/
theorem empty_dictionary_graceful (dict : List Word) (inputs : List Word) :
    start_game none dict inputs =
      ⟨true, false, [], 0, 0, 0, [], none, false, false⟩ := rfl

theorem feedback_loop_self (w : Word) :
    ∀ (n i0 : Nat), i0 + n ≤ w.length →
      feedback_loop w w i0 n = some (List.replicate n .Exact) := by
  intro n
  induction n with
  | zero => intro i0 _; rfl
  | succ n ih =>
    intro i0 h
    obtain ⟨g, hg⟩ : ∃ g, w.get? i0 = some g := by
      cases hw : w.get? i0 with
      | none => rw [List.get?_eq_none] at hw; omega
      | some g => exact ⟨g, rfl⟩
    have hmem : g ∈ w := List.get?_mem hg
    have hg' : w[i0]? = some g := by
      rw [← List.get?_eq_getElem?]
      exact hg
    have hstep : checkStep w w i0 = some .Exact := by
      simp [checkStep, hg, hg', hmem]
    unfold feedback_loop
    rw [hstep, ih (i0 + 1) (by omega)]
    rfl

theorem check_word_self (w : Word) (hw : byteLen w = w.length) :
    check_word w w = some (List.replicate w.length .Exact, true) := by
  unfold check_word
  rw [hw, feedback_loop_self w w.length 0 (by omega)]
  simp

/-- C8: when the drawn solution is already marked `guessed`, the session
takes the shortcut: exactly one evaluator pass, of the solution against
itself (trivially an all-`Exact` full match), the "You won! Come back
tomorrow!" message, zero attempts read, counter 0, and no `guessed_word`
call — the game loop never runs. -/
theorem already_solved_shortcut (w : Word) (dict inputs : List Word)
    (hw : byteLen w = w.length) :
    start_game (some ⟨w, true⟩) dict inputs =
      ⟨false, true, [some (List.replicate w.length .Exact, true)], 0, 0, 0,
       [], none, false, true⟩ := by
  have hcw := check_word_self w hw
  simp [start_game, hcw]

theorem already_solved_shortcut_witness :
    start_game (some ⟨crane, true⟩) [crane] [crate] =
      ⟨false, true, [some (List.replicate crane.length .Exact, true)], 0, 0,
       0, [], none, false, true⟩ :=
  already_solved_shortcut crane [crane] [crate] (by decide)

/-- C9: in a session on the normal path (solution not already guessed),
`guessed_word` is called exactly once when the loop ends in a genuine full
match, and never otherwise — a lost (or blocked, or panicked) session leaves
the dictionary unmutated. -/
theorem guessed_word_iff_won (w : Word) (dict inputs : List Word) :
    (start_game (some ⟨w, false⟩) dict inputs).guessedWordCalls =
      (if (start_game (some ⟨w, false⟩) dict inputs).loopStatus
          = some (.done true) then 1 else 0) := by
  by_cases h : (game_loop dict w inputs 0).status = .done true
  · simp [start_game, h]
  · simp [start_game, h]

theorem checkStep_total (sw gw : Word) (j : Nat) (hj : j < gw.length)
    (hs : j < sw.length) : (checkStep sw gw j).isSome = true := by
  obtain ⟨g, hg⟩ : ∃ g, gw.get? j = some g := by
    cases hw : gw.get? j with
    | none => rw [List.get?_eq_none] at hw; omega
    | some g => exact ⟨g, rfl⟩
  obtain ⟨s, hsx⟩ : ∃ s, sw.get? j = some s := by
    cases hw : sw.get? j with
    | none => rw [List.get?_eq_none] at hw; omega
    | some s => exact ⟨s, rfl⟩
  simp only [checkStep, hg, hsx]
  split <;> rfl

theorem feedback_loop_total (sw gw : Word) :
    ∀ (n i0 : Nat),
      (∀ j, j < n → (checkStep sw gw (i0 + j)).isSome = true) →
      ∃ fb, feedback_loop sw gw i0 n = some fb := by
  intro n
  induction n with
  | zero => intro i0 _; exact ⟨[], rfl⟩
  | succ n ih =>
    intro i0 h
    have h0 := h 0 (by omega)
    cases hs : checkStep sw gw (i0 + 0) with
    | none => rw [hs] at h0; cases h0
    | some f =>
      rw [Nat.add_zero] at hs
      obtain ⟨fs, hfs⟩ := ih (i0 + 1) (fun j hj => by
        have hx := h (j + 1) (by omega)
        rwa [show i0 + (j + 1) = i0 + 1 + j by omega] at hx)
      refine ⟨f :: fs, ?_⟩
      unfold feedback_loop
      rw [hs, hfs]

/-- C10: `check_word` iterates up to the guess's BYTE length while indexing
vectors of characters.  When the guess's character count equals its byte
count (every character one byte) and the solution has at least as many
characters, every index is in bounds and the evaluator returns; but for a
guess containing a multi-byte character the out-of-bounds panic branch is
reached — `"é"` against itself panics. -/
theorem check_word_index_bounds :
    (∀ sw gw : Word, byteLen gw = gw.length → gw.length ≤ sw.length →
      (check_word sw gw).isSome = true) ∧
    check_word ['é'] ['é'] = none := by
  constructor
  · intro sw gw hb hl
    obtain ⟨fb, hfb⟩ := feedback_loop_total sw gw (byteLen gw) 0
      (fun j hj => by
        rw [Nat.zero_add]
        exact checkStep_total sw gw j (by omega) (by omega))
    unfold check_word
    rw [hfb]
    rfl
  · decide

theorem check_word_index_bounds_witness :
    (check_word crane crate).isSome = true :=
  check_word_index_bounds.1 crane crate (by decide) (by decide)

end Wordle
